import Mathlib

/-
Verification of the two-time-pad recovery program (project1.py).

The program is shallowly embedded: byte strings become lists of natural
numbers (every byte is < 256 in the source, XOR preserves that bound),
Python floats become exact real numbers, the bigram dictionary becomes an
association list built with Python-dict overwrite semantics, and the global
random stream of the standard library becomes an explicit structure of
draw functions indexed by a running counter.  Code that can raise
(random.randrange on an empty range, indexing the header past its end)
returns Option, with none standing for the raised exception.
-/

/-- ALPHABET from the source: the byte string of space, A-Z, a-z. -/
def ALPHABET : List Nat :=
  [32,
   65, 66, 67, 68, 69, 70, 71, 72, 73, 74, 75, 76, 77, 78, 79, 80,
   81, 82, 83, 84, 85, 86, 87, 88, 89, 90,
   97, 98, 99, 100, 101, 102, 103, 104, 105, 106, 107, 108, 109, 110, 111,
   112, 113, 114, 115, 116, 117, 118, 119, 120, 121, 122]

/-- COMMON_WORDS from the source, as lists of ASCII byte values
("the", "and", "you", "that", "was", "this", "with", "for", "have", "not",
"are", "but", "had", "they", "his", "from", "she", "which", "will", "one"). -/
def COMMON_WORDS : List (List Nat) :=
  [[116, 104, 101], [97, 110, 100], [121, 111, 117], [116, 104, 97, 116],
   [119, 97, 115], [116, 104, 105, 115], [119, 105, 116, 104], [102, 111, 114],
   [104, 97, 118, 101], [110, 111, 116], [97, 114, 101], [98, 117, 116],
   [104, 97, 100], [116, 104, 101, 121], [104, 105, 115], [102, 114, 111, 109],
   [115, 104, 101], [119, 104, 105, 99, 104], [119, 105, 108, 108],
   [111, 110, 101]]

/-- xor_bytes from the source: bytes([a ^ b for a, b in zip(b1, b2)]).
zip truncates to the shorter input, exactly as Python's zip does. -/
def xor_bytes (b1 b2 : List Nat) : List Nat :=
  List.zipWith (fun a b => a ^^^ b) b1 b2

/-- byte_to_char from the source: byte 32 to space, A-Z to itself,
a-z to its uppercase equivalent (chr(b - 32)), anything else to None. -/
def byte_to_char (b : Nat) : Option Char :=
  if b = 32 then some ' '
  else if 65 ≤ b ∧ b ≤ 90 then some (Char.ofNat b)
  else if 97 ≤ b ∧ b ≤ 122 then some (Char.ofNat (b - 32))
  else none

/-- The bigram table: the logp dictionary of the source, as an association
list with distinct keys (built by dict-style overwriting inserts). -/
abbrev Table := List ((Char × Char) × ℝ)

/-- Python dict lookup d.get(k, default) on an association list:
the value of the first entry whose key is k, else the default. -/
def dget (m : Table) (k : Char × Char) (d : ℝ) : ℝ :=
  match m with
  | [] => d
  | e :: rest => if e.1 = k then e.2 else dget rest k d

/-- The lookup used by the scorer: logp.get((a, c), math.log(1e-9)). -/
noncomputable def logProbLookup (logp : Table) (k : Char × Char) : ℝ :=
  dget logp k (Real.log 1e-9)

/-- One summand of the scoring loop of score_bigram: the table lookup when
both bytes map to characters, the fixed penalty -100.0 otherwise. -/
noncomputable def pairTerm (b : List Nat) (logp : Table) (i : Nat) : ℝ :=
  match byte_to_char (b.getD i 0), byte_to_char (b.getD (i + 1) 0) with
  | some a, some c => logProbLookup logp (a, c)
  | _, _ => -100

/-- score_bigram from the source: s starts at 0.0 and the loop over
i in range(len(b) - 1) adds the bigram term for positions i, i+1. -/
noncomputable def score_bigram (b : List Nat) (logp : Table) : ℝ :=
  (List.range (b.length - 1)).foldl (fun s i => s + pairTerm b logp i) 0

/-- Python str.lower restricted to the byte level: A-Z down to a-z,
every other byte unchanged. -/
def lowerByte (b : Nat) : Nat :=
  if 65 ≤ b ∧ b ≤ 90 then b + 32 else b

/-- Boolean test that the first list starts the second one. -/
def isPrefOf : List Nat → List Nat → Bool
  | [], _ => true
  | _ :: _, [] => false
  | a :: w, b :: t => a == b && isPrefOf w t

/-- Python str.count (non-overlapping occurrence count), with explicit fuel
so that the recursion is structural; fuel = length of the text suffices
for nonempty patterns because every hit consumes at least one byte. -/
def countOccAux : Nat → List Nat → List Nat → Nat
  | 0, _, _ => 0
  | _ + 1, _, [] => 0
  | fuel + 1, w, b :: t =>
    if isPrefOf w (b :: t) then 1 + countOccAux fuel w (List.drop w.length (b :: t))
    else countOccAux fuel w t

/-- text.count(word) of the source, non-overlapping as in Python. -/
def countOcc (w t : List Nat) : Nat :=
  countOccAux t.length w t

/-- word_bonus_score from the source: lowercase the text once, then add
10000 per (non-overlapping) occurrence of each common word.  The utf-8
decode of the source is modelled at the byte level; it is the identity on
the ASCII bytes the search alphabet produces, and no common word (all
lowercase ASCII letters) can appear in text whose bytes are outside the
alphabet, matching candidate.decode("utf-8", errors="ignore").lower(). -/
def wordBonusN (b : List Nat) : Nat :=
  COMMON_WORDS.foldl (fun acc w => acc + countOcc w (b.map lowerByte) * 10000) 0

/-- combined_score from the source: bigram score plus the word bonus. -/
noncomputable def combined_score (b : List Nat) (logp : Table) : ℝ :=
  score_bigram b logp + (wordBonusN b : ℝ)

/-- C10: xor_bytes returns a sequence of length min(len(b1), len(b2)) whose
byte at each in-range position i is b1[i] XOR b2[i]; unequal-length inputs
are silently truncated to the shorter length (the function is total). -/
theorem xor_bytes_pointwise (b1 b2 : List Nat) :
    (xor_bytes b1 b2).length = min b1.length b2.length ∧
    ∀ i, i < min b1.length b2.length →
      (xor_bytes b1 b2).getD i 0 = (b1.getD i 0) ^^^ (b2.getD i 0) := by
  constructor
  · simp [xor_bytes]
  · induction b1 generalizing b2 with
    | nil => intro i hi; simp at hi
    | cons a t1 ih =>
      cases b2 with
      | nil => intro i hi; simp at hi
      | cons b t2 =>
        intro i hi
        cases i with
        | zero => simp [xor_bytes]
        | succ j =>
          have hj : j < min t1.length t2.length := by
            simp only [List.length_cons] at hi
            omega
          simpa [xor_bytes] using ih t2 j hj

/-- Witness for C10 at a concrete unequal-length pair. -/
theorem xor_bytes_pointwise_witness :
    (xor_bytes [1, 2, 3] [3, 4]).length = min 3 2 ∧
    (xor_bytes [1, 2, 3] [3, 4]).getD 0 0 = 1 ^^^ 3 := by
  refine ⟨(xor_bytes_pointwise [1, 2, 3] [3, 4]).1, ?_⟩
  exact (xor_bytes_pointwise [1, 2, 3] [3, 4]).2 0 (by decide)

/-- Value of one parsed CSV cell: float(v) when the cell is numeric, else
the except-branch value 0.0.  Cells arrive pre-parsed (CSV reading is I/O
plumbing outside the core): some q for a numeric cell of value q, none for
a non-numeric cell. -/
def cellVal (c : Option ℚ) : ℚ :=
  match c with
  | some q => q
  | none => 0

/-- Python dict assignment counts[k] = v on an association list: overwrite
the existing binding in place, else append a new one. -/
def dinsertQ (m : List ((Char × Char) × ℚ)) (k : Char × Char) (v : ℚ) :
    List ((Char × Char) × ℚ) :=
  match m with
  | [] => [(k, v)]
  | e :: rest => if e.1 = k then (k, v) :: rest else e :: dinsertQ rest k v

/-- One body row of load_ftable: for i, v in enumerate(r[1:]) set
counts[(a, header[i])] = float-or-zero(v).  The zip realises header[i];
rows longer than the header are guarded against in load_ftable. -/
def addRow (m : List ((Char × Char) × ℚ)) (header : List Char) (a : Char)
    (cells : List (Option ℚ)) : List ((Char × Char) × ℚ) :=
  (cells.zip header).foldl (fun acc cv => dinsertQ acc (a, cv.2) (cellVal cv.1)) m

/-- The counts dict of load_ftable over all body rows. -/
def buildCounts (header : List Char) (body : List (Char × List (Option ℚ))) :
    List ((Char × Char) × ℚ) :=
  body.foldl (fun acc r => addRow acc header r.1 r.2) []

/-- The totals dict of load_ftable: totals[a] = sum of counts[(a, b)] over
the dict entries whose row character is a. -/
def rowTotal (m : List ((Char × Char) × ℚ)) (a : Char) : ℚ :=
  m.foldl (fun s e => if e.1.1 = a then s + e.2 else s) 0

/-- The frequency floor of load_ftable: floor = 1e-9. -/
def floorQ : ℚ := 1e-9

/-- The probability of one entry: floor if tot <= 0 else max(v / tot, floor). -/
def probClamp (tot v : ℚ) : ℚ :=
  if tot ≤ 0 then floorQ else max (v / tot) floorQ

/-- load_ftable from the source, on the parsed table (header characters and
body rows of a row character plus cells).  A body row longer than the header
makes the source raise IndexError at header[i]; that exception is modelled
as none.  Otherwise the result maps every counts key to
math.log(probClamp(totals[a], counts[(a,b)])). -/
noncomputable def load_ftable (header : List Char)
    (body : List (Char × List (Option ℚ))) : Option Table :=
  if ∀ r ∈ body, r.2.length ≤ header.length then
    some ((buildCounts header body).map
      (fun e => (e.1,
        Real.log ((probClamp (rowTotal (buildCounts header body) e.1.1) e.2 : ℚ) : ℝ))))
  else none

-- The floor constant: cast to the reals it is the literal 1e-9.
lemma floorQ_cast : ((floorQ : ℚ) : ℝ) = (1e-9 : ℝ) := by
  norm_num [floorQ]

-- The floor constant is positive.
lemma floorQ_pos : (0 : ℚ) < floorQ := by
  norm_num [floorQ]

-- The clamp reaches the floor whenever the count is zero or the row total is.
lemma probClamp_floor_of_zero (tot v : ℚ) (h : v = 0 ∨ tot = 0) :
    probClamp tot v = floorQ := by
  rcases h with rfl | rfl
  · unfold probClamp
    split
    · rfl
    · rw [zero_div, max_eq_right floorQ_pos.le]
  · simp [probClamp]

-- Replacing every cell by its numeric value (non-numeric read as zero)
-- leaves the parsed cell value unchanged.
lemma cellVal_some_getD (c : Option ℚ) : cellVal (some (c.getD 0)) = cellVal c := by
  cases c <;> rfl

-- addRow only sees cells through cellVal, so the zero-filled row builds the
-- same counts.
lemma addRow_map_zero_fill (m : List ((Char × Char) × ℚ)) (header : List Char)
    (a : Char) (cells : List (Option ℚ)) :
    addRow m header a (cells.map (fun c => some (c.getD 0))) = addRow m header a cells := by
  unfold addRow
  rw [List.zip_map_left, List.foldl_map]
  refine List.foldl_ext _ _ m (fun acc cv _hcv => ?_)
  simp [cellVal_some_getD]

-- The counts dict ignores whether a non-numeric cell was zero-filled first.
lemma buildCounts_map_zero_fill (header : List Char)
    (body : List (Char × List (Option ℚ))) :
    buildCounts header (body.map (fun r => (r.1, r.2.map (fun c => some (c.getD 0))))) =
      buildCounts header body := by
  unfold buildCounts
  rw [List.foldl_map]
  refine List.foldl_ext _ _ [] (fun acc r _hr => ?_)
  exact addRow_map_zero_fill acc header r.1 r.2

/-- C5: every (a, b) entry of the loaded table stores the logarithm of
probability(a, b) = count(a, b) / rowTotal(a) clamped to the floor 1e-9,
the clamp yielding exactly the floor when the count is zero or the row
total is zero; and non-numeric cells act as zero counts (zero-filling them
leaves the counts unchanged). -/
theorem load_ftable_stores_clamped_log (header : List Char)
    (body : List (Char × List (Option ℚ))) (logp : Table)
    (hload : load_ftable header body = some logp) :
    (∀ a b L, ((a, b), L) ∈ logp →
      ∃ v, ((a, b), v) ∈ buildCounts header body ∧
        L = Real.log ((probClamp (rowTotal (buildCounts header body) a) v : ℚ) : ℝ) ∧
        ((v = 0 ∨ rowTotal (buildCounts header body) a = 0) →
          L = Real.log ((floorQ : ℚ) : ℝ))) ∧
    buildCounts header (body.map (fun r => (r.1, r.2.map (fun c => some (c.getD 0))))) =
      buildCounts header body := by
  refine ⟨?_, buildCounts_map_zero_fill header body⟩
  unfold load_ftable at hload
  split at hload
  · have hlogp := Option.some.inj hload
    subst hlogp
    intro a b L hmem
    obtain ⟨e, he, heq⟩ := List.mem_map.1 hmem
    obtain ⟨k, v⟩ := e
    obtain ⟨hk, hL⟩ := Prod.mk.injEq _ _ _ _ ▸ heq
    subst hk
    refine ⟨v, he, hL.symm, fun hz => ?_⟩
    rw [← hL, probClamp_floor_of_zero _ _ hz]
  · exact absurd hload (by simp)

/-- Witness for C5: a one-cell table whose single cell is non-numeric; its
count is zero, so the stored probability is exactly the floor. -/
theorem load_ftable_stores_clamped_log_witness :
    Real.log ((probClamp (rowTotal (buildCounts [' '] [(' ', [none])]) ' ') 0 : ℚ) : ℝ) =
      Real.log ((floorQ : ℚ) : ℝ) := by
  have h := load_ftable_stores_clamped_log [' '] [(' ', [none])]
    [((' ', ' '),
      Real.log ((probClamp (rowTotal (buildCounts [' '] [(' ', [none])]) ' ') 0 : ℚ) : ℝ))]
    (by rfl)
  obtain ⟨v, hv, hL, hz⟩ := h.1 ' ' ' ' _ (List.mem_singleton.2 rfl)
  have hv0 : v = 0 := by
    simpa [buildCounts, addRow, dinsertQ, cellVal] using hv
  exact hz (Or.inl hv0)

-- Keys present after a dict insert: the old keys plus the inserted one.
lemma mem_keys_dinsertQ (m : List ((Char × Char) × ℚ)) (k : Char × Char) (v : ℚ)
    (x : Char × Char) :
    x ∈ (dinsertQ m k v).map Prod.fst ↔ x ∈ m.map Prod.fst ∨ x = k := by
  induction m with
  | nil => simp [dinsertQ]
  | cons e rest ih =>
    by_cases he : e.1 = k
    · simp [dinsertQ, he]
      tauto
    · simp [dinsertQ, he, ih]
      tauto

-- A dict insert keeps the keys distinct.
lemma nodupKeys_dinsertQ (m : List ((Char × Char) × ℚ)) (k : Char × Char) (v : ℚ)
    (h : (m.map Prod.fst).Nodup) : ((dinsertQ m k v).map Prod.fst).Nodup := by
  induction m with
  | nil => simp [dinsertQ]
  | cons e rest ih =>
    simp only [List.map_cons, List.nodup_cons] at h
    by_cases he : e.1 = k
    · simp only [dinsertQ, he, if_true, List.map_cons, List.nodup_cons]
      exact ⟨he ▸ h.1, h.2⟩
    · simp only [dinsertQ, he, if_false, List.map_cons, List.nodup_cons]
      refine ⟨fun hx => ?_, ih h.2⟩
      rcases (mem_keys_dinsertQ rest k v e.1).1 hx with hx | hx
      · exact h.1 hx
      · exact he hx

-- A whole row of dict inserts keeps the keys distinct.
lemma nodupKeys_addRow (header : List Char) (a : Char) (cells : List (Option ℚ)) :
    ∀ m, (m.map Prod.fst).Nodup → ((addRow m header a cells).map Prod.fst).Nodup := by
  unfold addRow
  induction cells.zip header with
  | nil => intro m h; exact h
  | cons cv l ih =>
    intro m h
    exact ih _ (nodupKeys_dinsertQ m (a, cv.2) (cellVal cv.1) h)

-- The counts dict of load_ftable has distinct keys.
lemma nodupKeys_buildCounts (header : List Char)
    (body : List (Char × List (Option ℚ))) :
    ((buildCounts header body).map Prod.fst).Nodup := by
  unfold buildCounts
  have h : ∀ m : List ((Char × Char) × ℚ), (m.map Prod.fst).Nodup →
      ((body.foldl (fun acc r => addRow acc header r.1 r.2) m).map Prod.fst).Nodup := by
    induction body with
    | nil => intro m h; exact h
    | cons r rest ih =>
      intro m h
      exact ih _ (nodupKeys_addRow header r.1 r.2 m h)
  exact h [] (by simp)

-- On a table with distinct keys, dict lookup of a present key returns its
-- stored value.
lemma dget_of_mem (m : Table) (k : Char × Char) (L d : ℝ)
    (hnd : (m.map Prod.fst).Nodup) (hmem : (k, L) ∈ m) : dget m k d = L := by
  induction m with
  | nil => simp at hmem
  | cons e rest ih =>
    simp only [List.map_cons, List.nodup_cons] at hnd
    rcases List.mem_cons.1 hmem with rfl | hmem
    · simp [dget]
    · have hne : e.1 ≠ k := by
        intro he
        exact hnd.1 (he ▸ List.mem_map_of_mem Prod.fst hmem)
      simp only [dget, hne, if_false]
      exact ih hnd.2 hmem

-- Dict lookup of an absent key returns the default.
lemma dget_of_not_mem (m : Table) (k : Char × Char) (d : ℝ)
    (h : ∀ L, (k, L) ∉ m) : dget m k d = d := by
  induction m with
  | nil => rfl
  | cons e rest ih =>
    have hne : e.1 ≠ k := by
      intro he
      exact h e.2 (by rw [← he]; exact List.mem_cons_self e rest)
    simp only [dget, hne, if_false]
    exact ih (fun L hL => h L (List.mem_cons_of_mem e hL))

-- The loaded table has distinct keys (mapping preserves the key column).
lemma nodupKeys_load_ftable (header : List Char)
    (body : List (Char × List (Option ℚ))) (logp : Table)
    (hload : load_ftable header body = some logp) :
    (logp.map Prod.fst).Nodup := by
  unfold load_ftable at hload
  split at hload
  · have hlogp := Option.some.inj hload
    subst hlogp
    rw [List.map_map]
    exact nodupKeys_buildCounts header body
  · exact absurd hload (by simp)

/-- C6: the scorer's bigram lookup is total on any loaded table: a present
character pair returns its stored log-probability, an absent one returns
exactly log(1e-9); being a Lean function into the reals, it never raises
and never yields an undefined value. -/
theorem logProbLookup_total (header : List Char)
    (body : List (Char × List (Option ℚ))) (logp : Table)
    (hload : load_ftable header body = some logp) (k : Char × Char) :
    (∀ L, (k, L) ∈ logp → logProbLookup logp k = L) ∧
    ((∀ L, (k, L) ∉ logp) → logProbLookup logp k = Real.log (1e-9 : ℝ)) := by
  constructor
  · intro L hmem
    exact dget_of_mem logp k L _ (nodupKeys_load_ftable header body logp hload) hmem
  · intro habs
    exact dget_of_not_mem logp k _ habs

/-- Witness for C6: on a loaded one-entry table, looking up a pair outside
the trained domain returns exactly log(1e-9). -/
theorem logProbLookup_total_witness :
    logProbLookup
      [((' ', ' '),
        Real.log ((probClamp (rowTotal (buildCounts [' '] [(' ', [some 1])]) ' ') 1 : ℚ) : ℝ))]
      ('A', 'A') = Real.log (1e-9 : ℝ) := by
  refine (logProbLookup_total [' '] [(' ', [some 1])] _ (by rfl) ('A', 'A')).2 ?_
  intro L hL
  simp at hL

/-- The fixed random-number stream consumed by the search, indexed by a
running counter: ints n feeds random.randrange and random.choice (reduced
modulo the requested bound), reals n feeds random.random(). -/
structure Rng where
  ints : Nat → Nat
  reals : Nat → ℝ

/-- random.randrange(k) at stream position n: raises (none) on an empty
range, otherwise yields a value in [0, k). -/
def randrange (rng : Rng) (n k : Nat) : Option Nat :=
  if k = 0 then none else some (rng.ints n % k)

/-- The mutable state of one hillclimb run: the working candidate p1 and its
current combined score, the best-ever pair and score, and the position of
the random stream.  Before the first restart p1 and cur_score do not exist
in the source; they are initialised here to placeholder values that the
first restart overwrites and the result never reads. -/
structure SAState where
  p1 : List Nat
  curScore : ℝ
  bestPair : List Nat × List Nat
  bestScore : ℝ
  ctr : Nat

/-- One iteration of the inner loop of hillclimb: draw a position i and a
proposal from ALPHABET, mutate, rescore both derived plaintexts, and accept
when delta >= 0 or random.random() < exp(delta / T) with
T = max(0.01, 1.0 - it / iterations), updating the best-ever record on a
strict improvement; otherwise revert the mutated byte.  random.random() is
drawn only when delta < 0, exactly as the short-circuit or of the source. -/
noncomputable def saStep (rng : Rng) (X : List Nat) (logp : Table)
    (iterations it : Nat) (st : SAState) : Option SAState :=
  match randrange rng st.ctr X.length with
  | none => none
  | some i =>
    let old := st.p1.getD i 0
    let proposal := ALPHABET.getD (rng.ints (st.ctr + 1) % ALPHABET.length) 0
    let p1m := st.p1.set i proposal
    let newScore := combined_score p1m logp + combined_score (xor_bytes p1m X) logp
    let delta := newScore - st.curScore
    let T := max (0.01 : ℝ) (1 - (it : ℝ) / (iterations : ℝ))
    if 0 ≤ delta then
      some { p1 := p1m, curScore := newScore,
             bestPair := if st.bestScore < newScore then (p1m, xor_bytes p1m X)
                         else st.bestPair,
             bestScore := if st.bestScore < newScore then newScore else st.bestScore,
             ctr := st.ctr + 2 }
    else if rng.reals (st.ctr + 2) < Real.exp (delta / T) then
      some { p1 := p1m, curScore := newScore,
             bestPair := if st.bestScore < newScore then (p1m, xor_bytes p1m X)
                         else st.bestPair,
             bestScore := if st.bestScore < newScore then newScore else st.bestScore,
             ctr := st.ctr + 3 }
    else
      some { p1 := p1m.set i old, curScore := st.curScore,
             bestPair := st.bestPair, bestScore := st.bestScore, ctr := st.ctr + 3 }

/-- The inner loop for it in range(iterations): n iterations remain and the
next one has index it; a raised exception (none) propagates. -/
noncomputable def runIters (rng : Rng) (X : List Nat) (logp : Table)
    (iterations : Nat) : Nat → Nat → Option SAState → Option SAState
  | _, 0, o => o
  | it, n + 1, o =>
    runIters rng X logp iterations (it + 1) n (o.bind (saStep rng X logp iterations it))

/-- The start of one restart: p1 = bytearray([32] * k) and cur_score is the
combined score of the all-space candidate and its XOR counterpart; the
best-ever fields and the stream position carry over untouched. -/
noncomputable def resetCandidate (X : List Nat) (logp : Table) (st : SAState) : SAState :=
  { p1 := List.replicate X.length 32,
    curScore := combined_score (List.replicate X.length 32) logp +
      combined_score (xor_bytes (List.replicate X.length 32) X) logp,
    bestPair := st.bestPair, bestScore := st.bestScore, ctr := st.ctr }

/-- The outer loop for r in range(restarts); the loop variable r is unused
in the source, so only the count remains. -/
noncomputable def runRestarts (rng : Rng) (X : List Nat) (logp : Table)
    (iterations : Nat) : Nat → Option SAState → Option SAState
  | 0, o => o
  | n + 1, o =>
    runRestarts rng X logp iterations n
      (o.bind (fun st => runIters rng X logp iterations 0 iterations
        (some (resetCandidate X logp st))))

/-- hillclimb from the source: best_pair = (b"", b"") and
best_score = -1e18 initially, then restarts of iterations annealing steps;
the returned value is (best_pair, best_score), or none if the run raised
(randrange on an empty range when len(X) = 0). -/
noncomputable def hillclimb (rng : Rng) (X : List Nat) (logp : Table)
    (restarts iterations : Nat) : Option ((List Nat × List Nat) × ℝ) :=
  (runRestarts rng X logp iterations restarts
    (some { p1 := List.replicate X.length 32, curScore := 0,
            bestPair := ([], []), bestScore := -1e18, ctr := 0 })).map
    (fun st => (st.bestPair, st.bestScore))

-- One annealing step never decreases the recorded best score.
lemma saStep_bestScore_mono (rng : Rng) (X : List Nat) (logp : Table)
    (iterations it : Nat) (st st' : SAState)
    (h : saStep rng X logp iterations it st = some st') :
    st.bestScore ≤ st'.bestScore := by
  unfold saStep at h
  rcases hr : randrange rng st.ctr X.length with _ | i
  · rw [hr] at h; exact absurd h (by simp)
  · rw [hr] at h
    simp only at h
    split_ifs at h
    all_goals obtain rfl := Option.some.inj h
    all_goals dsimp only
    all_goals first
      | exact le_refl _
      | exact le_of_lt (by assumption)

-- A raised exception propagates through the remaining iterations.
lemma runIters_none (rng : Rng) (X : List Nat) (logp : Table) (iterations : Nat) :
    ∀ n it, runIters rng X logp iterations it n none = none := by
  intro n
  induction n with
  | zero => intro it; rfl
  | succ m ih => intro it; exact ih (it + 1)

-- The inner loop never decreases the recorded best score.
lemma runIters_bestScore_mono (rng : Rng) (X : List Nat) (logp : Table)
    (iterations : Nat) :
    ∀ n it st st', runIters rng X logp iterations it n (some st) = some st' →
      st.bestScore ≤ st'.bestScore := by
  intro n
  induction n with
  | zero =>
    intro it st st' h
    obtain rfl := Option.some.inj h
    exact le_refl _
  | succ m ih =>
    intro it st st' h
    rcases hs : saStep rng X logp iterations it st with _ | st1
    · rw [show runIters rng X logp iterations it (m + 1) (some st) =
          runIters rng X logp iterations (it + 1) m
            ((some st).bind (saStep rng X logp iterations it)) from rfl,
        Option.some_bind, hs, runIters_none] at h
      exact absurd h (by simp)
    · have hstep := saStep_bestScore_mono rng X logp iterations it st st1 hs
      have h2 : runIters rng X logp iterations (it + 1) m (some st1) = some st' := by
        rw [show runIters rng X logp iterations it (m + 1) (some st) =
            runIters rng X logp iterations (it + 1) m
              ((some st).bind (saStep rng X logp iterations it)) from rfl,
          Option.some_bind, hs] at h
        exact h
      exact le_trans hstep (ih (it + 1) st1 st' h2)

-- A raised exception propagates through the remaining restarts.
lemma runRestarts_none (rng : Rng) (X : List Nat) (logp : Table) (iterations : Nat) :
    ∀ n, runRestarts rng X logp iterations n none = none := by
  intro n
  induction n with
  | zero => rfl
  | succ m ih => exact ih

-- The whole run never decreases the recorded best score.
lemma runRestarts_bestScore_mono (rng : Rng) (X : List Nat) (logp : Table)
    (iterations : Nat) :
    ∀ n st st', runRestarts rng X logp iterations n (some st) = some st' →
      st.bestScore ≤ st'.bestScore := by
  intro n
  induction n with
  | zero =>
    intro st st' h
    obtain rfl := Option.some.inj h
    exact le_refl _
  | succ m ih =>
    intro st st' h
    rcases hs : runIters rng X logp iterations 0 iterations
        (some (resetCandidate X logp st)) with _ | st1
    · rw [show runRestarts rng X logp iterations (m + 1) (some st) =
          runRestarts rng X logp iterations m
            ((some st).bind (fun s => runIters rng X logp iterations 0 iterations
              (some (resetCandidate X logp s)))) from rfl,
        Option.some_bind, hs, runRestarts_none] at h
      exact absurd h (by simp)
    · have hiter : (resetCandidate X logp st).bestScore ≤ st1.bestScore :=
        runIters_bestScore_mono rng X logp iterations iterations 0 _ st1 hs
      have h2 : runRestarts rng X logp iterations m (some st1) = some st' := by
        rw [show runRestarts rng X logp iterations (m + 1) (some st) =
            runRestarts rng X logp iterations m
              ((some st).bind (fun s => runIters rng X logp iterations 0 iterations
                (some (resetCandidate X logp s)))) from rfl,
          Option.some_bind, hs] at h
        exact h
      exact le_trans hiter (ih st1 st' h2)

/-- C2: throughout one hillclimb run the recorded best score is
non-decreasing: every accepted-or-rejected iteration step can only raise or
keep it, a new restart re-initialises only the working candidate (and its
working score) while the best-ever pair, best-ever score and stream
position carry over untouched, and consequently the best score at the end
of any number of restarts is at least the best score at the start. -/
theorem hillclimb_best_monotone :
    (∀ (rng : Rng) (X : List Nat) (logp : Table) (iterations it : Nat)
      (st st' : SAState), saStep rng X logp iterations it st = some st' →
        st.bestScore ≤ st'.bestScore) ∧
    (∀ (X : List Nat) (logp : Table) (st : SAState),
      (resetCandidate X logp st).bestScore = st.bestScore ∧
      (resetCandidate X logp st).bestPair = st.bestPair ∧
      (resetCandidate X logp st).ctr = st.ctr ∧
      (resetCandidate X logp st).p1 = List.replicate X.length 32) ∧
    (∀ (rng : Rng) (X : List Nat) (logp : Table) (iterations n : Nat)
      (st st' : SAState),
      runRestarts rng X logp iterations n (some st) = some st' →
        st.bestScore ≤ st'.bestScore) := by
  refine ⟨saStep_bestScore_mono, ?_, ?_⟩
  · intro X logp st
    exact ⟨rfl, rfl, rfl, rfl⟩
  · intro rng X logp iterations n st st' h
    exact runRestarts_bestScore_mono rng X logp iterations n st st' h

/-- Witness for C2: a concrete accepted step (all-space candidate of length
one, empty table, zero draws) keeps the best score from falling. -/
theorem hillclimb_best_monotone_witness :
    (⟨[32], 0, ([], []), 0, 0⟩ : SAState).bestScore ≤
      (⟨[32], 0, ([], []), 0, 2⟩ : SAState).bestScore := by
  refine hillclimb_best_monotone.1 ⟨fun _ => 0, fun _ => 0⟩ [32] [] 1 0 _ _ ?_
  have wb32 : wordBonusN [32] = 0 := by decide
  have wb0 : wordBonusN [0] = 0 := by decide
  simp [saStep, randrange, ALPHABET, combined_score, score_bigram, xor_bytes, wb32, wb0]

-- Writing back the remembered old byte undoes a single-byte mutation.
lemma set_set_getD (l : List Nat) (i x : Nat) :
    (l.set i x).set i (l.getD i 0) = l := by
  induction l generalizing i with
  | nil => rfl
  | cons a t ih =>
    cases i with
    | zero => rfl
    | succ j => simp only [List.set_cons_succ, List.getD_cons_succ, ih]

/-- C3: in iteration it of I iterations, with delta = new score minus
current score and temperature T = max(0.01, 1.0 - it/I), the proposed
single-byte mutation is accepted exactly when delta >= 0 or the uniform
draw is below exp(delta / T): on acceptance the candidate keeps the
mutation and the current score becomes the new score, otherwise the
mutated byte is reverted to its prior value, leaving candidate and current
score unchanged. -/
theorem saStep_accept_rule (rng : Rng) (X : List Nat) (logp : Table)
    (iterations it : Nat) (st st' : SAState) (i : Nat)
    (proposal : Nat) (newScore delta T : ℝ)
    (hi : randrange rng st.ctr X.length = some i)
    (hprop : proposal = ALPHABET.getD (rng.ints (st.ctr + 1) % ALPHABET.length) 0)
    (hnew : newScore = combined_score (st.p1.set i proposal) logp +
      combined_score (xor_bytes (st.p1.set i proposal) X) logp)
    (hdelta : delta = newScore - st.curScore)
    (hT : T = max (0.01 : ℝ) (1 - (it : ℝ) / (iterations : ℝ)))
    (h : saStep rng X logp iterations it st = some st') :
    ((0 ≤ delta ∨ rng.reals (st.ctr + 2) < Real.exp (delta / T)) →
       st'.p1 = st.p1.set i proposal ∧ st'.curScore = newScore) ∧
    (¬(0 ≤ delta ∨ rng.reals (st.ctr + 2) < Real.exp (delta / T)) →
       st'.p1 = st.p1 ∧ st'.curScore = st.curScore) := by
  subst hprop hnew hdelta hT
  unfold saStep at h
  rw [hi] at h
  simp only at h
  rw [not_or]
  constructor
  · intro hacc
    split_ifs at h
    all_goals obtain rfl := Option.some.inj h
    all_goals dsimp only
    all_goals first
      | exact ⟨rfl, rfl⟩
      | tauto
  · intro hrej
    split_ifs at h
    all_goals obtain rfl := Option.some.inj h
    all_goals dsimp only
    all_goals first
      | exact ⟨set_set_getD st.p1 i _, rfl⟩
      | tauto

/-- Witness for C3: the concrete accepted step of the C2 witness, where
delta = 0, so acceptance holds and the candidate keeps the mutation. -/
theorem saStep_accept_rule_witness :
    (((0 : ℝ) ≤ 0 ∨ (0 : ℝ) < Real.exp (0 / 1)) →
       ([32] : List Nat) = [32].set 0 32 ∧ (0 : ℝ) = 0) ∧
    (¬((0 : ℝ) ≤ 0 ∨ (0 : ℝ) < Real.exp (0 / 1)) →
       ([32] : List Nat) = [32] ∧ (0 : ℝ) = 0) := by
  have wb32 : wordBonusN [32] = 0 := by decide
  have wb0 : wordBonusN [0] = 0 := by decide
  exact saStep_accept_rule ⟨fun _ => 0, fun _ => 0⟩ [32] [] 1 0
    ⟨[32], 0, ([], []), 0, 0⟩ ⟨[32], 0, ([], []), 0, 2⟩ 0 32 0 0 1
    (by rfl)
    (by rfl)
    (by simp [combined_score, score_bigram, xor_bytes, wb32, wb0])
    (by norm_num)
    (by norm_num)
    (by simp [saStep, randrange, ALPHABET, combined_score, score_bigram, xor_bytes, wb32, wb0])

/-- A recorded best pair is valid for the difference array X: the two
plaintexts XOR to X and both have its length. -/
def goodPair (X : List Nat) (pr : List Nat × List Nat) : Prop :=
  xor_bytes pr.1 pr.2 = X ∧ pr.1.length = X.length ∧ pr.2.length = X.length

-- XORing a sequence onto its own XOR with X recovers X.
lemma xor_bytes_self_xor (p X : List Nat) (h : p.length = X.length) :
    xor_bytes p (xor_bytes p X) = X := by
  induction p generalizing X with
  | nil =>
    cases X with
    | nil => rfl
    | cons x xs => simp at h
  | cons a t ih =>
    cases X with
    | nil => simp at h
    | cons x xs =>
      simp only [List.length_cons, Nat.add_right_cancel_iff] at h
      simp only [xor_bytes, List.zipWith_cons_cons]
      refine congrArg₂ _ ?_ (ih xs h)
      rw [← Nat.xor_assoc, Nat.xor_self, Nat.zero_xor]

-- The XOR counterpart of a full-length candidate has the length of X.
lemma length_xor_bytes_self (p X : List Nat) (h : p.length = X.length) :
    (xor_bytes p X).length = X.length := by
  simp [xor_bytes, h]

/-- The state invariant of the search: the working candidate has the length
of X, and the best-ever pair is either the untouched initial placeholder
(with its sentinel score) or a valid recorded pair. -/
def hcInv (X : List Nat) (st : SAState) : Prop :=
  st.p1.length = X.length ∧
  ((st.bestPair = ([], []) ∧ st.bestScore = -1e18) ∨ goodPair X st.bestPair)

-- One annealing step preserves the state invariant.
lemma saStep_inv (rng : Rng) (X : List Nat) (logp : Table)
    (iterations it : Nat) (st st' : SAState)
    (hinv : hcInv X st) (h : saStep rng X logp iterations it st = some st') :
    hcInv X st' := by
  obtain ⟨hlen, hbest⟩ := hinv
  unfold saStep at h
  rcases hr : randrange rng st.ctr X.length with _ | i
  · rw [hr] at h; exact absurd h (by simp)
  · rw [hr] at h
    simp only at h
    have hlenm : (st.p1.set i (ALPHABET.getD (rng.ints (st.ctr + 1) % ALPHABET.length) 0)).length
        = X.length := by
      rw [List.length_set]; exact hlen
    split_ifs at h
    all_goals obtain rfl := Option.some.inj h
    all_goals refine ⟨?_, ?_⟩
    · exact hlenm
    · refine Or.inr ⟨?_, ?_, ?_⟩
      · exact xor_bytes_self_xor _ X hlenm
      · exact hlenm
      · exact length_xor_bytes_self _ X hlenm
    · exact hlenm
    · exact hbest
    · exact hlenm
    · refine Or.inr ⟨?_, ?_, ?_⟩
      · exact xor_bytes_self_xor _ X hlenm
      · exact hlenm
      · exact length_xor_bytes_self _ X hlenm
    · exact hlenm
    · exact hbest
    · rw [List.length_set, List.length_set]; exact hlen
    · exact hbest

-- The inner loop preserves the state invariant.
lemma runIters_inv (rng : Rng) (X : List Nat) (logp : Table) (iterations : Nat) :
    ∀ n it st st', hcInv X st →
      runIters rng X logp iterations it n (some st) = some st' → hcInv X st' := by
  intro n
  induction n with
  | zero =>
    intro it st st' hinv h
    obtain rfl := Option.some.inj h
    exact hinv
  | succ m ih =>
    intro it st st' hinv h
    rcases hs : saStep rng X logp iterations it st with _ | st1
    · rw [show runIters rng X logp iterations it (m + 1) (some st) =
          runIters rng X logp iterations (it + 1) m
            ((some st).bind (saStep rng X logp iterations it)) from rfl,
        Option.some_bind, hs, runIters_none] at h
      exact absurd h (by simp)
    · have h2 : runIters rng X logp iterations (it + 1) m (some st1) = some st' := by
        rw [show runIters rng X logp iterations it (m + 1) (some st) =
            runIters rng X logp iterations (it + 1) m
              ((some st).bind (saStep rng X logp iterations it)) from rfl,
          Option.some_bind, hs] at h
        exact h
      exact ih (it + 1) st1 st' (saStep_inv rng X logp iterations it st st1 hinv hs) h2

-- Restart initialisation preserves the state invariant.
lemma resetCandidate_inv (X : List Nat) (logp : Table) (st : SAState)
    (hinv : hcInv X st) : hcInv X (resetCandidate X logp st) := by
  exact ⟨List.length_replicate _ _, hinv.2⟩

-- The outer loop preserves the state invariant.
lemma runRestarts_inv (rng : Rng) (X : List Nat) (logp : Table) (iterations : Nat) :
    ∀ n st st', hcInv X st →
      runRestarts rng X logp iterations n (some st) = some st' → hcInv X st' := by
  intro n
  induction n with
  | zero =>
    intro st st' hinv h
    obtain rfl := Option.some.inj h
    exact hinv
  | succ m ih =>
    intro st st' hinv h
    rcases hs : runIters rng X logp iterations 0 iterations
        (some (resetCandidate X logp st)) with _ | st1
    · rw [show runRestarts rng X logp iterations (m + 1) (some st) =
          runRestarts rng X logp iterations m
            ((some st).bind (fun s => runIters rng X logp iterations 0 iterations
              (some (resetCandidate X logp s)))) from rfl,
        Option.some_bind, hs, runRestarts_none] at h
      exact absurd h (by simp)
    · have h2 : runRestarts rng X logp iterations m (some st1) = some st' := by
        rw [show runRestarts rng X logp iterations (m + 1) (some st) =
            runRestarts rng X logp iterations m
              ((some st).bind (fun s => runIters rng X logp iterations 0 iterations
                (some (resetCandidate X logp s)))) from rfl,
          Option.some_bind, hs] at h
        exact h
      have hinv1 : hcInv X st1 :=
        runIters_inv rng X logp iterations iterations 0 _ st1
          (resetCandidate_inv X logp st hinv) hs
      exact ih st1 st' hinv1 h2

/-- C1: whenever hillclimb returns a result, the returned pair is either
the initial placeholder pair (empty, with the sentinel score -1e18, in
which case the search never recorded a best) or a pair recorded by the
search, and every recorded pair satisfies p1 XOR p2 = X with both
plaintexts of length len(X). -/
theorem hillclimb_xor_identity (rng : Rng) (X : List Nat) (logp : Table)
    (restarts iterations : Nat) (pr : List Nat × List Nat) (sc : ℝ)
    (h : hillclimb rng X logp restarts iterations = some (pr, sc)) :
    (pr = ([], []) ∧ sc = -1e18) ∨
    (xor_bytes pr.1 pr.2 = X ∧ pr.1.length = X.length ∧ pr.2.length = X.length) := by
  unfold hillclimb at h
  rcases hr : runRestarts rng X logp iterations restarts
      (some { p1 := List.replicate X.length 32, curScore := 0,
              bestPair := ([], []), bestScore := -1e18, ctr := 0 }) with _ | st
  · rw [hr] at h; exact absurd h (by simp)
  · rw [hr] at h
    simp only [Option.map_some'] at h
    obtain ⟨hpr, hsc⟩ := Prod.mk.injEq _ _ _ _ ▸ Option.some.inj h
    have hinv : hcInv X st := by
      refine runRestarts_inv rng X logp iterations restarts _ st ?_ hr
      exact ⟨List.length_replicate _ _, Or.inl ⟨rfl, rfl⟩⟩
    rcases hinv.2 with ⟨hb, hs⟩ | hgood
    · exact Or.inl ⟨hpr ▸ hb, hsc ▸ hs⟩
    · exact Or.inr (hpr ▸ hgood)

/-- Witness for C1: with zero restarts nothing is ever recorded and the
result is the placeholder pair with the sentinel score. -/
theorem hillclimb_xor_identity_witness :
    ((([], []) : List Nat × List Nat) = ([], []) ∧ (-1e18 : ℝ) = -1e18) ∨
    (xor_bytes ([] : List Nat) [] = [32] ∧
      ([] : List Nat).length = [32].length ∧ ([] : List Nat).length = [32].length) :=
  hillclimb_xor_identity ⟨fun _ => 0, fun _ => 0⟩ [32] [] 0 0 ([], []) (-1e18) (by rfl)

-- On an empty difference array the very first iteration raises:
-- random.randrange(0) has an empty range.
lemma runIters_empty (rng : Rng) (logp : Table) (iterations : Nat) :
    ∀ n it st, 0 < n →
      runIters rng [] logp iterations it n (some st) = none := by
  intro n
  cases n with
  | zero => intro it st h; exact absurd h (by simp)
  | succ m =>
    intro it st _
    rw [show runIters rng [] logp iterations it (m + 1) (some st) =
        runIters rng [] logp iterations (it + 1) m
          ((some st).bind (saStep rng [] logp iterations it)) from rfl,
      Option.some_bind,
      show saStep rng [] logp iterations it st = none from rfl]
    exact runIters_none rng [] logp iterations m (it + 1)

-- With an empty difference array and positive iteration count, every
-- restart raises and the exception propagates out of the whole run.
lemma runRestarts_empty (rng : Rng) (logp : Table) (iterations : Nat)
    (hI : 0 < iterations) :
    ∀ n st, 0 < n →
      runRestarts rng [] logp iterations n (some st) = none := by
  intro n
  cases n with
  | zero => intro st h; exact absurd h (by simp)
  | succ m =>
    intro st _
    rw [show runRestarts rng [] logp iterations (m + 1) (some st) =
        runRestarts rng [] logp iterations m
          ((some st).bind (fun s => runIters rng [] logp iterations 0 iterations
            (some (resetCandidate [] logp s)))) from rfl,
      Option.some_bind,
      runIters_empty rng logp iterations iterations 0 _ hI]
    exact runRestarts_none rng [] logp iterations m

-- hillclimb on a zero-length difference array with positive restart and
-- iteration counts yields no result: the modelled ValueError escapes.
lemma hillclimb_empty_aux (rng : Rng) (logp : Table) (restarts iterations : Nat)
    (hR : 0 < restarts) (hI : 0 < iterations) :
    hillclimb rng [] logp restarts iterations = none := by
  unfold hillclimb
  rw [runRestarts_empty rng logp iterations hI restarts _ hR]
  rfl

/-- C4 counterexample: at the concrete zero-length input with the default
restarts = 20 and iterations = 3000, hillclimb produces no result at all
(random.randrange(0) raises ValueError on the first iteration), refuting
the claim that it returns a zero-length pair with the baseline score. -/
theorem hillclimb_empty_counterexample :
    hillclimb ⟨fun _ => 0, fun _ => 0⟩ [] [] 20 3000 = none :=
  hillclimb_empty_aux ⟨fun _ => 0, fun _ => 0⟩ [] 20 3000 (by decide) (by decide)

/-- C4 (amended): with a zero-length DifferenceArray and the default
positive restart and iteration counts, hillclimb does not return: the
first iteration's random.randrange on the empty range raises (modelled as
none), for every random stream and frequency table. -/
theorem hillclimb_empty_raises (rng : Rng) (logp : Table) :
    hillclimb rng [] logp 20 3000 = none :=
  hillclimb_empty_aux rng logp 20 3000 (by decide) (by decide)

/-- C9: hillclimb is a pure function of the difference array, table, counts
and the random stream: two runs whose fixed random streams agree pointwise
(both the integer draws and the uniform draws) produce identical results,
best pair and best score alike. -/
theorem hillclimb_deterministic (rng1 rng2 : Rng) (X : List Nat) (logp : Table)
    (restarts iterations : Nat)
    (hints : ∀ n, rng1.ints n = rng2.ints n)
    (hreals : ∀ n, rng1.reals n = rng2.reals n) :
    hillclimb rng1 X logp restarts iterations =
      hillclimb rng2 X logp restarts iterations := by
  have heq : rng1 = rng2 := by
    cases rng1
    cases rng2
    simp only [Rng.mk.injEq]
    exact ⟨funext hints, funext hreals⟩
  rw [heq]

/-- Witness for C9 at a concrete stream and input. -/
theorem hillclimb_deterministic_witness :
    hillclimb ⟨fun _ => 0, fun _ => 0⟩ [32] [] 1 1 =
      hillclimb ⟨fun _ => 0, fun _ => 0⟩ [32] [] 1 1 :=
  hillclimb_deterministic ⟨fun _ => 0, fun _ => 0⟩ ⟨fun _ => 0, fun _ => 0⟩
    [32] [] 1 1 (fun _ => rfl) (fun _ => rfl)

/-- The byte-to-character mapping exactly as the specification words it:
byte 32 to space, bytes 65-90 (A-Z) to themselves, bytes 97-122 (a-z) to
their uppercase equivalents, every other byte to none (unscoreable). -/
def specByteChar (b : Nat) : Option Char :=
  if b = 32 then some ' '
  else if 65 ≤ b ∧ b ≤ 90 then some (Char.ofNat b)
  else if 97 ≤ b ∧ b ≤ 122 then some (Char.ofNat (b - 32))
  else none

/-- The bigram score exactly as the specification words it: the sum over
every adjacent position pair of the looked-up log-probability when both
bytes map to scoring characters, and of the fixed penalty -100 when either
byte is unscoreable. -/
noncomputable def specBigramScore (b : List Nat) (logp : Table) : ℝ :=
  ∑ i ∈ Finset.range (b.length - 1),
    match specByteChar (b.getD i 0), specByteChar (b.getD (i + 1) 0) with
    | some a, some c => logProbLookup logp (a, c)
    | _, _ => -100

-- A fold that only accumulates sums is the sum of the mapped list.
lemma foldl_add_shift (f : Nat → ℝ) (l : List Nat) :
    ∀ c : ℝ, l.foldl (fun s i => s + f i) c = c + (l.map f).sum := by
  induction l with
  | nil => intro c; simp
  | cons a t ih =>
    intro c
    simp only [List.foldl_cons, List.map_cons, List.sum_cons]
    rw [ih (c + f a), add_assoc]

-- The scoring loop of score_bigram is the sum of its per-position terms.
lemma score_bigram_eq_sum (b : List Nat) (logp : Table) :
    score_bigram b logp = ∑ i ∈ Finset.range (b.length - 1), pairTerm b logp i := by
  unfold score_bigram
  rw [foldl_add_shift, zero_add]
  rfl

/-- C7: the bigram score of a byte sequence equals the sum, over every
adjacent pair of bytes, of the looked-up log-probability when both bytes
map to scoring characters and of the fixed penalty -100 otherwise, with
the byte-to-character mapping spelled out as the specification states it
(32 to space, 65-90 to themselves, 97-122 to their uppercase equivalents,
everything else unscoreable). -/
theorem score_bigram_spec (b : List Nat) (logp : Table) :
    score_bigram b logp = specBigramScore b logp := by
  rw [score_bigram_eq_sum]
  rfl

-- Membership in the search alphabet, characterised by byte ranges.
lemma mem_ALPHABET_iff (b : Nat) :
    b ∈ ALPHABET ↔ (b = 32 ∨ (65 ≤ b ∧ b ≤ 90) ∨ (97 ≤ b ∧ b ≤ 122)) := by
  simp only [ALPHABET, List.mem_cons, List.not_mem_nil, or_false]
  omega

-- A byte outside the alphabet is unscoreable.
lemma byte_to_char_none_of_not_mem (b : Nat) (h : b ∉ ALPHABET) :
    byte_to_char b = none := by
  unfold byte_to_char
  split_ifs with h1 h2 h3
  · exact absurd ((mem_ALPHABET_iff b).2 (Or.inl h1)) h
  · exact absurd ((mem_ALPHABET_iff b).2 (Or.inr (Or.inl h2))) h
  · exact absurd ((mem_ALPHABET_iff b).2 (Or.inr (Or.inr h3))) h
  · rfl

-- A byte of the alphabet maps to a scoring character.
lemma byte_to_char_some_of_mem (b : Nat) (h : b ∈ ALPHABET) :
    ∃ c, byte_to_char b = some c := by
  rcases (mem_ALPHABET_iff b).1 h with h1 | h2 | h3
  · exact ⟨' ', by simp [byte_to_char, h1]⟩
  · refine ⟨Char.ofNat b, ?_⟩
    unfold byte_to_char
    rw [if_neg (by omega), if_pos h2]
  · refine ⟨Char.ofNat (b - 32), ?_⟩
    unfold byte_to_char
    rw [if_neg (by omega), if_neg (by omega), if_pos h3]

-- A pattern whose first byte never occurs in the text is never counted.
lemma countOccAux_eq_zero (h0 : Nat) (w : List Nat) :
    ∀ fuel t, (∀ x ∈ t, x ≠ h0) → countOccAux fuel (h0 :: w) t = 0 := by
  intro fuel
  induction fuel with
  | zero => intro t _; rfl
  | succ m ih =>
    intro t ht
    cases t with
    | nil => rfl
    | cons b t2 =>
      have hb : (h0 == b) = false :=
        beq_eq_false_iff_ne.2 (Ne.symm (ht b (List.mem_cons_self b t2)))
      have hpref : isPrefOf (h0 :: w) (b :: t2) = false := by
        simp only [isPrefOf, hb, Bool.false_and]
      simp only [countOccAux, hpref, Bool.false_eq_true, if_false]
      exact ih t2 (fun x hx => ht x (List.mem_cons_of_mem b hx))

-- Every common word is nonempty and starts with a lowercase letter.
lemma common_words_shape :
    ∀ w ∈ COMMON_WORDS, w ≠ [] ∧ 97 ≤ w.headD 0 ∧ w.headD 0 ≤ 122 := by
  decide

-- A text whose bytes all lie outside the alphabet earns no word bonus.
lemma wordBonusN_eq_zero (b : List Nat) (hb : ∀ x ∈ b, x ∉ ALPHABET) :
    wordBonusN b = 0 := by
  have hzero : ∀ w ∈ COMMON_WORDS, countOcc w (b.map lowerByte) = 0 := by
    intro w hw
    obtain ⟨hne, hlo, hhi⟩ := common_words_shape w hw
    cases w with
    | nil => exact absurd rfl hne
    | cons h0 w2 =>
      simp only [List.headD_cons] at hlo hhi
      refine countOccAux_eq_zero h0 w2 _ _ (fun x hx => ?_)
      obtain ⟨y, hy, rfl⟩ := List.mem_map.1 hx
      have hy2 := hb y hy
      rw [mem_ALPHABET_iff] at hy2
      push_neg at hy2
      have hly : lowerByte y = y := by
        unfold lowerByte
        rw [if_neg (by omega)]
      rw [hly]
      omega
  have hfold : ∀ (l : List (List Nat)) (acc : Nat),
      (∀ w ∈ l, countOcc w (b.map lowerByte) = 0) →
      l.foldl (fun acc w => acc + countOcc w (b.map lowerByte) * 10000) acc = acc := by
    intro l
    induction l with
    | nil => intro acc _; rfl
    | cons w t ih =>
      intro acc h
      simp only [List.foldl_cons, h w (List.mem_cons_self w t), Nat.zero_mul, Nat.add_zero]
      exact ih acc (fun w2 hw2 => h w2 (List.mem_cons_of_mem w hw2))
  exact hfold COMMON_WORDS 0 hzero

-- On an all-non-alphabet sequence every adjacent pair earns the penalty.
lemma pairTerm_penalty (b : List Nat) (logp : Table) (i : Nat)
    (hi : i < b.length - 1) (hb : ∀ x ∈ b, x ∉ ALPHABET) :
    pairTerm b logp i = -100 := by
  have hilen : i < b.length := by omega
  have hmem : b.getD i 0 ∈ b := by
    rw [List.getD_eq_getElem b 0 hilen]
    exact List.getElem_mem hilen
  unfold pairTerm
  rw [byte_to_char_none_of_not_mem _ (hb _ hmem)]

-- The bigram score of an all-non-alphabet sequence is the summed penalty.
lemma score_bigram_nonalpha (b : List Nat) (logp : Table)
    (hb : ∀ x ∈ b, x ∉ ALPHABET) :
    score_bigram b logp = ((b.length - 1 : ℕ) : ℝ) * (-100) := by
  rw [score_bigram_eq_sum,
    Finset.sum_congr rfl (fun i hi => pairTerm_penalty b logp i (Finset.mem_range.1 hi) hb),
    Finset.sum_const, Finset.card_range, nsmul_eq_mul]

-- The clamp never drops below the floor.
lemma probClamp_ge_floor (tot v : ℚ) : floorQ ≤ probClamp tot v := by
  unfold probClamp
  split
  · exact le_refl _
  · exact le_max_right _ _

-- Every value stored by load_ftable is at least log of the floor.
lemma table_value_ge (header : List Char) (body : List (Char × List (Option ℚ)))
    (logp : Table) (hload : load_ftable header body = some logp) :
    ∀ e ∈ logp, Real.log (1e-9 : ℝ) ≤ e.2 := by
  unfold load_ftable at hload
  split at hload
  · have hlogp := Option.some.inj hload
    subst hlogp
    intro e he
    obtain ⟨e0, _, rfl⟩ := List.mem_map.1 he
    have hq : floorQ ≤ probClamp (rowTotal (buildCounts header body) e0.1.1) e0.2 :=
      probClamp_ge_floor _ _
    have hcast : ((floorQ : ℚ) : ℝ) ≤
        ((probClamp (rowTotal (buildCounts header body) e0.1.1) e0.2 : ℚ) : ℝ) := by
      exact_mod_cast hq
    have hpos : (0 : ℝ) < ((floorQ : ℚ) : ℝ) := by
      rw [floorQ_cast]; norm_num
    calc Real.log (1e-9 : ℝ) = Real.log ((floorQ : ℚ) : ℝ) := by rw [floorQ_cast]
      _ ≤ _ := Real.log_le_log hpos hcast
  · exact absurd hload (by simp)

-- A dict lookup with a lower-bounded table and default keeps the bound.
lemma dget_ge (m : Table) (k : Char × Char) (d : ℝ)
    (h : ∀ e ∈ m, d ≤ e.2) : d ≤ dget m k d := by
  induction m with
  | nil => exact le_refl _
  | cons e rest ih =>
    unfold dget
    split_ifs
    · exact h e (List.mem_cons_self e rest)
    · exact ih (fun e2 he2 => h e2 (List.mem_cons_of_mem e he2))

-- On an all-alphabet sequence every adjacent pair scores at least the
-- floor log-probability.
lemma pairTerm_alpha_ge (b : List Nat) (logp : Table) (i : Nat)
    (hi : i < b.length - 1) (hb : ∀ x ∈ b, x ∈ ALPHABET)
    (hval : ∀ e ∈ logp, Real.log (1e-9 : ℝ) ≤ e.2) :
    Real.log (1e-9 : ℝ) ≤ pairTerm b logp i := by
  have hilen : i < b.length := by omega
  have hjlen : i + 1 < b.length := by omega
  have hmem1 : b.getD i 0 ∈ b := by
    rw [List.getD_eq_getElem b 0 hilen]; exact List.getElem_mem hilen
  have hmem2 : b.getD (i + 1) 0 ∈ b := by
    rw [List.getD_eq_getElem b 0 hjlen]; exact List.getElem_mem hjlen
  obtain ⟨a, ha⟩ := byte_to_char_some_of_mem _ (hb _ hmem1)
  obtain ⟨c, hc⟩ := byte_to_char_some_of_mem _ (hb _ hmem2)
  unfold pairTerm
  rw [ha, hc]
  exact dget_ge logp (a, c) _ hval

-- The bigram score of an all-alphabet sequence is at least the summed
-- floor log-probability.
lemma score_bigram_alpha_ge (b : List Nat) (logp : Table)
    (hb : ∀ x ∈ b, x ∈ ALPHABET)
    (hval : ∀ e ∈ logp, Real.log (1e-9 : ℝ) ≤ e.2) :
    ((b.length - 1 : ℕ) : ℝ) * Real.log (1e-9 : ℝ) ≤ score_bigram b logp := by
  rw [score_bigram_eq_sum]
  calc ((b.length - 1 : ℕ) : ℝ) * Real.log (1e-9 : ℝ)
      = ∑ _i ∈ Finset.range (b.length - 1), Real.log (1e-9 : ℝ) := by
        rw [Finset.sum_const, Finset.card_range, nsmul_eq_mul]
    _ ≤ ∑ i ∈ Finset.range (b.length - 1), pairTerm b logp i :=
        Finset.sum_le_sum (fun i hi =>
          pairTerm_alpha_ge b logp i (Finset.mem_range.1 hi) hb hval)

-- The floor's logarithm comfortably beats the penalty: exp 100 > 1e9.
lemma neg_hundred_lt_log_floor : (-100 : ℝ) < Real.log (1e-9 : ℝ) := by
  rw [Real.lt_log_iff_exp_lt (by norm_num : (0 : ℝ) < 1e-9)]
  have h1 : Real.exp 100 = Real.exp 10 ^ (10 : ℕ) := by
    rw [← Real.exp_nat_mul]; norm_num
  have h2 : (11 : ℝ) ≤ Real.exp 10 := by
    have := Real.add_one_le_exp (10 : ℝ)
    linarith
  have h4 : (1e9 : ℝ) < Real.exp 100 := by
    rw [h1]
    calc (1e9 : ℝ) < 11 ^ (10 : ℕ) := by norm_num
      _ ≤ Real.exp 10 ^ (10 : ℕ) := pow_le_pow_left₀ (by norm_num) h2 10
  rw [Real.exp_neg, show (1e-9 : ℝ) = ((1e9 : ℝ))⁻¹ by norm_num]
  exact inv_strictAnti₀ (by norm_num) h4

/-- C8: for every length k >= 2 and every table loaded from non-negative
counts, an all-non-alphabet candidate of length k scores strictly below
every all-alphabet candidate of the same length: each of its k-1 adjacent
pairs earns the penalty -100 and it earns no word bonus, while alphabet
pairs earn at least log(1e-9) > -100 plus a non-negative word bonus. -/
theorem penalty_dominance (header : List Char) (body : List (Char × List (Option ℚ)))
    (logp : Table) (k : Nat) (s1 s2 : List Nat)
    (hload : load_ftable header body = some logp)
    (_hnn : ∀ r ∈ body, ∀ c ∈ r.2, 0 ≤ c.getD 0)
    (hk : 2 ≤ k)
    (hs1len : s1.length = k) (hs1 : ∀ x ∈ s1, x ∉ ALPHABET)
    (hs2len : s2.length = k) (hs2 : ∀ x ∈ s2, x ∈ ALPHABET) :
    combined_score s1 logp < combined_score s2 logp := by
  have hval := table_value_ge header body logp hload
  have h1 : combined_score s1 logp = ((k - 1 : ℕ) : ℝ) * (-100) := by
    unfold combined_score
    rw [score_bigram_nonalpha s1 logp hs1, wordBonusN_eq_zero s1 hs1, hs1len]
    simp
  have h2 : ((k - 1 : ℕ) : ℝ) * Real.log (1e-9 : ℝ) ≤ combined_score s2 logp := by
    unfold combined_score
    have hsc := score_bigram_alpha_ge s2 logp hs2 hval
    rw [hs2len] at hsc
    have hbp : (0 : ℝ) ≤ (wordBonusN s2 : ℝ) := Nat.cast_nonneg _
    linarith
  have hp : (0 : ℝ) < ((k - 1 : ℕ) : ℝ) := by
    have hke : 1 ≤ k - 1 := by omega
    exact_mod_cast Nat.lt_of_lt_of_le Nat.zero_lt_one hke
  have h3 : ((k - 1 : ℕ) : ℝ) * (-100) < ((k - 1 : ℕ) : ℝ) * Real.log (1e-9 : ℝ) :=
    (mul_lt_mul_left hp).2 neg_hundred_lt_log_floor
  rw [h1]
  exact lt_of_lt_of_le h3 h2

/-- Witness for C8: over a loaded one-entry table, the all-zero-byte pair
scores strictly below the all-A pair of the same length two. -/
theorem penalty_dominance_witness :
    combined_score [0, 0]
      [((' ', ' '),
        Real.log ((probClamp (rowTotal (buildCounts [' '] [(' ', [some 1])]) ' ') 1 : ℚ) : ℝ))] <
    combined_score [65, 65]
      [((' ', ' '),
        Real.log ((probClamp (rowTotal (buildCounts [' '] [(' ', [some 1])]) ' ') 1 : ℚ) : ℝ))] :=
  penalty_dominance [' '] [(' ', [some 1])] _ 2 [0, 0] [65, 65]
    (by rfl) (by decide) (by decide) (by decide) (by decide) (by decide) (by decide)
